import Mathlib

/-!
Shallow embedding of `src/rust/src/api.rs` from the `arrow_ring_buffer`
repository: an unchecked fixed-capacity ring buffer `RingBuffer<'a, T, N>`
addressed by monotonically increasing logical indices.

Modelling decisions, all taken from the source:

* In the default configuration (no `compat` feature) `type Index = u64`, an
  unsigned 64-bit integer.  Index values are embedded as `Nat` together with
  explicit reduction modulo `2 ^ 64`; the spec fixes the arithmetic of the
  index type to be wrapping, so `len + 1`, `head + 1`, `tail + 1` and
  `len - 1` are `wrapAdd`/`wrapSub` below.
* The backing memory of `capacity` slots of `&'a T` is embedded as a
  `List (Option α)` of that length; a freshly allocated slot is `none`
  (uninitialised), a written slot holds `some e`.  Reading a slot returns
  its `Option α` content, so a read of an uninitialised slot is observable
  as `none` instead of undefined behaviour.
* `get` and `put` compute `index % N`.  When the const generic `N` is `0`
  this is a remainder by zero, which panics at run time in Rust; a panic is
  embedded as the `Option.none` result of the operation.  `push` and `pop`
  call `put`/`get` and inherit that failure.
-/

namespace ArrowRing

/-- The number of values of the `Index` type (`u64`): `2 ^ 64`. -/
def IndexSize : Nat := 18446744073709551616

/-- Wrapping addition of `u64` values embedded as naturals. -/
def wrapAdd (a b : Nat) : Nat := (a + b) % IndexSize

/-- Wrapping subtraction of `u64` values embedded as naturals. -/
def wrapSub (a b : Nat) : Nat := (a + (IndexSize - b % IndexSize)) % IndexSize

/-- The state of `RingBuffer<'a, T, N>`: the const generic `N`, the backing
memory of `capacity` slots, and the four counter fields `capacity`, `len`,
`head`, `tail` of the Rust struct.  Slots hold `some e` once written,
`none` while uninitialised. -/
structure RingBuffer (α : Type) where
  N : Nat
  memory : List (Option α)
  capacity : Nat
  len : Nat
  head : Nat
  tail : Nat

deriving instance DecidableEq for RingBuffer

/-- `RingBuffer::with_capacity(capacity)`: allocates `capacity` fresh slots
and zero-initialises the counters. -/
def with_capacity (α : Type) (N capacity : Nat) : RingBuffer α :=
  { N := N, memory := List.replicate capacity none,
    capacity := capacity, len := 0, head := 0, tail := 0 }

/-- `RingBuffer::<T, N>::new()`, which is `with_capacity(N)`. -/
def new (α : Type) (N : Nat) : RingBuffer α :=
  with_capacity α N N

/-- `is_index_in_range(index)`: `(tail <= index) && (index < head) && (len > 0)`. -/
def is_index_in_range (b : RingBuffer α) (index : Nat) : Bool :=
  decide (b.tail ≤ index) && decide (index < b.head) && decide (0 < b.len)

/-- `is_empty()`: `len == 0`. -/
def is_empty (b : RingBuffer α) : Bool :=
  decide (b.len = 0)

/-- `is_full()`: `len >= capacity`. -/
def is_full (b : RingBuffer α) : Bool :=
  decide (b.capacity ≤ b.len)

/-- `get(index)`: reads the slot at `index % N`.  A `none` result is the
panic on remainder by zero when `N = 0`; otherwise the slot content (itself
an `Option α`, `none` for an uninitialised slot) is returned. -/
def get (b : RingBuffer α) (index : Nat) : Option (Option α) :=
  if b.N = 0 then none else some (b.memory.getD (index % b.N) none)

/-- `put(index, elem)`: writes `some elem` into the slot at `index % N` and
returns the new state together with the element (the Rust function returns
`elem`).  A `none` result is the panic on remainder by zero when `N = 0`. -/
def put (b : RingBuffer α) (index : Nat) (elem : α) : Option (RingBuffer α × α) :=
  if b.N = 0 then none
  else some ({ b with memory := b.memory.set (index % b.N) (some elem) }, elem)

/-- `push(elem)`: `put(head, elem)` then `len += 1; head += 1` with the
wrapping arithmetic of the index type. -/
def push (b : RingBuffer α) (elem : α) : Option (RingBuffer α) :=
  (put b b.head elem).map fun pe =>
    { pe.1 with len := wrapAdd pe.1.len 1, head := wrapAdd pe.1.head 1 }

/-- `pop()`: `get(tail)` then `len -= 1; tail += 1` with the wrapping
arithmetic of the index type; returns the new state and the value read. -/
def pop (b : RingBuffer α) : Option (RingBuffer α × Option α) :=
  (get b b.tail).map fun result =>
    ({ b with len := wrapSub b.len 1, tail := wrapAdd b.tail 1 }, result)

/-- One mutating operation of the public API, for describing traces. -/
inductive Op (α : Type) where
  | push (e : α)
  | pop

deriving instance DecidableEq for Op

/-- Runs a trace of operations from a state, collecting the values returned
by the pops in order; `none` when some operation panics. -/
def run (b : RingBuffer α) : List (Op α) → Option (RingBuffer α × List (Option α))
  | [] => some (b, [])
  | Op.push e :: t => (push b e).bind fun b2 => run b2 t
  | Op.pop :: t =>
      (pop b).bind fun pr => (run pr.1 t).map fun br => (br.1, pr.2 :: br.2)

/-- A state is reachable for construction capacity `C` when some trace of
pushes and pops leads to it from the freshly constructed buffer. -/
def Reachable (α : Type) (C : Nat) (b : RingBuffer α) : Prop :=
  ∃ t rs, run (new α C) t = some (b, rs)

/-- The elements pushed by a trace, in order. -/
def pushedElems : List (Op α) → List α
  | [] => []
  | Op.push e :: t => e :: pushedElems t
  | Op.pop :: t => pushedElems t

/-- The number of pushes in a trace. -/
def numPushes : List (Op α) → Nat
  | [] => 0
  | Op.push _ :: t => numPushes t + 1
  | Op.pop :: t => numPushes t

/-- The number of pops in a trace. -/
def numPops : List (Op α) → Nat
  | [] => 0
  | Op.push _ :: t => numPops t
  | Op.pop :: t => numPops t + 1

/-- Validity of a trace relative to capacity `N`, starting after `p` pushes
and `o` pops: the live count after every push stays within the capacity and
no pop happens on an empty buffer. -/
def validFrom (N : Nat) : Nat → Nat → List (Op α) → Bool
  | _, _, [] => true
  | p, o, Op.push _ :: t => decide (p + 1 - o ≤ N) && validFrom N (p + 1) o t
  | p, o, Op.pop :: t => decide (o < p) && validFrom N p (o + 1) t

/-- Abstraction relation between a buffer state and the queue `q` of its
live elements, for states whose counters have not wrapped: the window
`[tail, head)` has the elements of `q` in its slots. -/
def InvQ (b : RingBuffer α) (q : List α) : Prop :=
  b.capacity = b.N ∧ b.memory.length = b.N ∧ b.N < IndexSize ∧
  b.head = b.tail + q.length ∧ b.len = q.length ∧ q.length ≤ b.N ∧
  ∀ k, k < q.length → b.memory.getD ((b.tail + k) % b.N) none = q[k]?

/-- A trace of `m` repetitions of one push of `x` followed by one pop. -/
def pairTrace (x : α) : Nat → List (Op α)
  | 0 => []
  | m + 1 => Op.push x :: Op.pop :: pairTrace x m

/-! ### Basic lemmas about the embedding -/

theorem IndexSize_pos : 0 < IndexSize := by
  decide

theorem run_append (b : RingBuffer α) (t1 t2 : List (Op α)) :
    run b (t1 ++ t2) = (run b t1).bind fun p =>
      (run p.1 t2).map fun q => (q.1, p.2 ++ q.2) := by
  induction t1 generalizing b with
  | nil => cases h : run b t2 <;> simp [run, h]
  | cons op t ih =>
      cases op with
      | push e => cases h : push b e <;> simp [run, h, ih]
      | pop =>
          cases h : pop b with
          | none => simp [run, h]
          | some pr =>
              cases h2 : run pr.1 t with
              | none => simp [run, h, h2, ih]
              | some p1 =>
                  cases h3 : run p1.1 t2 <;> simp [run, h, h2, h3, ih]

theorem push_some (b : RingBuffer α) (e : α) (h : ¬ b.N = 0) :
    push b e = some { b with memory := b.memory.set (b.head % b.N) (some e), len := wrapAdd b.len 1, head := wrapAdd b.head 1 } := by
  simp [push, put, h]

theorem push_none (b : RingBuffer α) (e : α) (h : b.N = 0) :
    push b e = none := by
  simp [push, put, h]

theorem pop_some (b : RingBuffer α) (h : ¬ b.N = 0) :
    pop b = some ({ b with len := wrapSub b.len 1, tail := wrapAdd b.tail 1 }, b.memory.getD (b.tail % b.N) none) := by
  simp [pop, get, h]

theorem pop_none (b : RingBuffer α) (h : b.N = 0) :
    pop b = none := by
  simp [pop, get, h]

/-! ### C1: the validity predicate -/

/-- C1.  For every buffer state and logical index `i`,
`is_index_in_range i` holds iff `tail ≤ i < head` and `len > 0`; moreover
the result depends only on `tail`, `head` and `len`, never on the capacity
or the memory (two states agreeing on those three counters agree on the
predicate). -/
theorem C1_is_index_in_range (b c : RingBuffer α) (i : Nat)
    (ht : b.tail = c.tail) (hh : b.head = c.head) (hl : b.len = c.len) :
    (is_index_in_range b i = true ↔ (b.tail ≤ i ∧ i < b.head ∧ 0 < b.len)) ∧
    is_index_in_range b i = is_index_in_range c i := by
  constructor
  · simp [is_index_in_range, and_assoc]
  · simp [is_index_in_range, ht, hh, hl]

/-- Witness for C1 at two concrete states that differ in capacity and
memory but share the three counters. -/
theorem C1_is_index_in_range_witness :
    (is_index_in_range (RingBuffer.mk 5 ([] : List (Option Nat)) 5 1 2 0) 1 = true ↔
      ((RingBuffer.mk 5 ([] : List (Option Nat)) 5 1 2 0).tail ≤ 1 ∧
        1 < (RingBuffer.mk 5 ([] : List (Option Nat)) 5 1 2 0).head ∧
        0 < (RingBuffer.mk 5 ([] : List (Option Nat)) 5 1 2 0).len)) ∧
    is_index_in_range (RingBuffer.mk 5 ([] : List (Option Nat)) 5 1 2 0) 1 =
      is_index_in_range (RingBuffer.mk 7 [some 3] 99 1 2 0) 1 :=
  C1_is_index_in_range (RingBuffer.mk 5 [] 5 1 2 0)
    (RingBuffer.mk 7 [some 3] 99 1 2 0) 1 rfl rfl rfl

/-! ### C10: remainder by zero in get and put -/

/-- C10.  On a buffer constructed with capacity `0`, every `get` and every
`put` evaluates a remainder by zero and panics (modelled as `none`), so no
element access completes; when the const generic is positive the index
computation is well defined and `get`/`put` always complete. -/
theorem C10_mod_zero (α : Type) (i : Nat) (e : α) (b : RingBuffer α) :
    get (new α 0) i = none ∧ put (new α 0) i e = none ∧
    (0 < b.N → (get b i).isSome ∧ (put b i e).isSome) := by
  refine ⟨rfl, rfl, fun h => ?_⟩
  have hz : ¬ b.N = 0 := Nat.pos_iff_ne_zero.mp h
  constructor
  · simp [get, hz]
  · simp [put, hz]

/-- Witness for C10 at a concrete index, element and positive-capacity
buffer. -/
theorem C10_mod_zero_witness :
    get (new Nat 0) 4 = none ∧ put (new Nat 0) 4 9 = none ∧
    (get (new Nat 2) 4).isSome ∧ (put (new Nat 2) 4 9).isSome := by
  have h := C10_mod_zero Nat 4 9 (new Nat 2)
  exact ⟨h.1, h.2.1, h.2.2 (by decide)⟩

/-! ### C8: the freshly constructed buffer -/

/-- C8.  A freshly constructed buffer of any capacity has `len = 0`,
`head = tail = 0` and no index in range; moreover every state that a trace
of operations reaches from a capacity-`0` buffer without panicking is still
empty with no index in range (on such a buffer every push and pop panics,
so only the empty trace completes). -/
theorem C8_fresh (α : Type) (C i : Nat) :
    (new α C).len = 0 ∧ (new α C).head = 0 ∧ (new α C).tail = 0 ∧
    is_index_in_range (new α C) i = false ∧
    (∀ (t : List (Op α)) (b : RingBuffer α) (rs : List (Option α)),
      run (new α 0) t = some (b, rs) →
        b.len = 0 ∧ ∀ j, is_index_in_range b j = false) := by
  refine ⟨rfl, rfl, rfl, by simp [is_index_in_range, new, with_capacity], ?_⟩
  intro t b rs h
  cases t with
  | nil =>
      simp [run] at h
      rw [← h.1]
      exact ⟨rfl, fun j => by simp [is_index_in_range, new, with_capacity]⟩
  | cons op t =>
      exfalso
      cases op with
      | push e =>
          simp [run, push, put, new, with_capacity] at h
      | pop =>
          simp [run, pop, get, new, with_capacity] at h

/-- Witness for C8 at concrete capacity and index, with the capacity-zero
part applied to the empty trace. -/
theorem C8_fresh_witness :
    (new Nat 5).len = 0 ∧ (new Nat 5).head = 0 ∧ (new Nat 5).tail = 0 ∧
    is_index_in_range (new Nat 5) 2 = false ∧
    ((new Nat 0).len = 0 ∧ ∀ j, is_index_in_range (new Nat 0) j = false) := by
  have h := C8_fresh Nat 5 2
  exact ⟨h.1, h.2.1, h.2.2.1, h.2.2.2.1, h.2.2.2.2 [] (new Nat 0) [] rfl⟩

/-! ### C4: is_full and is_empty -/

/-- Counterexample to C4 as stated: pushing twice into a buffer of
capacity `1` is a reachable state (the unchecked push never fails for a
positive capacity) whose `len` is `2`, so `is_full` is true while
`len ≠ capacity`. -/
theorem C4_counterexample :
    run (new Nat 1) [Op.push 5, Op.push 6] =
      some (RingBuffer.mk 1 [some 6] 1 2 2 0, []) ∧
    Reachable Nat 1 (RingBuffer.mk 1 [some 6] 1 2 2 0) ∧
    is_full (RingBuffer.mk 1 ([some 6] : List (Option Nat)) 1 2 2 0) = true ∧
    (RingBuffer.mk 1 ([some 6] : List (Option Nat)) 1 2 2 0).len ≠
      (RingBuffer.mk 1 ([some 6] : List (Option Nat)) 1 2 2 0).capacity := by
  refine ⟨by decide, ⟨[Op.push 5, Op.push 6], [], by decide⟩, by decide, by decide⟩

/-- C4 amended: `is_empty` is true exactly when `len = 0`, `is_full` is
true exactly when `len ≥ capacity` (not `len = capacity`: the unchecked
push can drive `len` beyond `capacity` in reachable states), the two only
coincide in the stated way when `len ≤ capacity`, and both predicates hold
together only when `capacity = 0`.  This holds for every state, hence for
every reachable one. -/
theorem C4_full_empty (b : RingBuffer α) :
    (is_empty b = true ↔ b.len = 0) ∧
    (is_full b = true ↔ b.capacity ≤ b.len) ∧
    (b.len ≤ b.capacity → (is_full b = true ↔ b.len = b.capacity)) ∧
    (is_full b = true ∧ is_empty b = true → b.capacity = 0) := by
  refine ⟨by simp [is_empty], by simp [is_full], fun h => ?_, fun h => ?_⟩
  · simp [is_full]
    omega
  · have h1 : b.capacity ≤ b.len := by simpa [is_full] using h.1
    have h2 : b.len = 0 := by simpa [is_empty] using h.2
    omega

/-- Witness for C4 amended at a concrete state. -/
theorem C4_full_empty_witness :
    (is_empty (new Nat 3) = true ↔ (new Nat 3).len = 0) ∧
    (is_full (new Nat 3) = true ↔ (new Nat 3).capacity ≤ (new Nat 3).len) ∧
    ((new Nat 3).len = (new Nat 3).capacity ↔ is_full (new Nat 3) = true) := by
  have h := C4_full_empty (new Nat 3)
  exact ⟨h.1, h.2.1, (h.2.2.1 (by decide)).symm⟩

/-! ### C5: pop on an empty buffer -/

/-- Counterexample to C5 as stated: on the (legal) capacity-`0` buffer,
which is empty, `pop` does not underflow `len` and advance `tail`; it
panics on the remainder by zero inside `get` (modelled as `none`), so it
does signal an error and changes nothing. -/
theorem C5_counterexample : pop (new Nat 0) = none := by
  decide

/-- C5 amended: on a buffer whose const generic capacity is positive,
`pop` on an empty buffer (`len = 0`) completes without signalling an
error, wraps `len` to the maximum representable `u64` value
`2 ^ 64 - 1`, and still advances `tail` by one (wrapping). -/
theorem C5_pop_empty (b : RingBuffer α) (hN : 0 < b.N) (hlen : b.len = 0) :
    ∃ b2 r, pop b = some (b2, r) ∧
      b2.len = IndexSize - 1 ∧ b2.tail = wrapAdd b.tail 1 ∧
      b2.head = b.head ∧ b2.memory = b.memory := by
  have hz : ¬ b.N = 0 := Nat.pos_iff_ne_zero.mp hN
  refine ⟨{ b with len := wrapSub b.len 1, tail := wrapAdd b.tail 1 },
    b.memory.getD (b.tail % b.N) none, ?_, ?_, rfl, rfl, rfl⟩
  · simp [pop, get, hz]
  · simp [hlen, wrapSub, IndexSize]

/-- Witness for C5 amended on a concrete empty buffer of capacity `2`. -/
theorem C5_pop_empty_witness :
    ∃ b2 r, pop (new Nat 2) = some (b2, r) ∧
      b2.len = IndexSize - 1 ∧ b2.tail = wrapAdd (new Nat 2).tail 1 ∧
      b2.head = (new Nat 2).head ∧ b2.memory = (new Nat 2).memory :=
  C5_pop_empty (new Nat 2) (by decide) rfl

/-! ### C6: wrapping increments in push -/

/-- C6.  The `len` and `head` increments of `push` use the wrapping
arithmetic of the index type: whenever `push` completes (positive const
generic capacity), the new counters are the wrapped increments, and in
particular a counter equal to the maximum representable value
`2 ^ 64 - 1` wraps to `0` rather than signalling an error. -/
theorem C6_push_wraps (b : RingBuffer α) (e : α) (hN : 0 < b.N) :
    ∃ b2, push b e = some b2 ∧
      b2.len = wrapAdd b.len 1 ∧ b2.head = wrapAdd b.head 1 ∧
      (b.head = IndexSize - 1 → b2.head = 0) ∧
      (b.len = IndexSize - 1 → b2.len = 0) := by
  have hz : ¬ b.N = 0 := Nat.pos_iff_ne_zero.mp hN
  refine ⟨{ b with memory := b.memory.set (b.head % b.N) (some e), len := wrapAdd b.len 1, head := wrapAdd b.head 1 }, ?_, rfl, rfl, fun h => ?_, fun h => ?_⟩
  · simp [push, put, hz]
  · simp [h, wrapAdd, IndexSize]
  · simp [h, wrapAdd, IndexSize]

/-- Witness for C6 on a concrete buffer whose `head` and `len` both sit at
the maximum representable value. -/
theorem C6_push_wraps_witness :
    ∃ b2, push (RingBuffer.mk 1 [some 7] 1 (IndexSize - 1) (IndexSize - 1) 0) (9 : Nat)
        = some b2 ∧
      b2.len = wrapAdd (IndexSize - 1) 1 ∧ b2.head = wrapAdd (IndexSize - 1) 1 ∧
      b2.head = 0 ∧ b2.len = 0 := by
  obtain ⟨b2, h1, h2, h3, h4, h5⟩ :=
    C6_push_wraps (RingBuffer.mk 1 [some 7] 1 (IndexSize - 1) (IndexSize - 1) 0)
      (9 : Nat) (by decide)
  exact ⟨b2, h1, h2, h3, h4 rfl, h5 rfl⟩

/-! ### The queue abstraction: ring-buffer states simulate a FIFO queue -/

theorem wrapAdd_of_lt (a b : Nat) (h : a + b < IndexSize) : wrapAdd a b = a + b := by
  simp only [wrapAdd]
  exact Nat.mod_eq_of_lt h

theorem wrapSub_one_of (a : Nat) (h1 : 1 ≤ a) (h2 : a < IndexSize) :
    wrapSub a 1 = a - 1 := by
  simp only [wrapSub, IndexSize] at h2 ⊢
  omega

theorem fifo_run (t : List (Op α)) :
    ∀ (b : RingBuffer α) (q : List α), InvQ b q →
      validFrom b.N b.head b.tail t = true →
      b.head + numPushes t < IndexSize →
      ∃ bf, run b t = some (bf, ((q ++ pushedElems t).take (numPops t)).map some) ∧
        InvQ bf ((q ++ pushedElems t).drop (numPops t)) ∧
        bf.N = b.N ∧ bf.tail = b.tail + numPops t := by
  induction t with
  | nil =>
      intro b q hinv _ _
      refine ⟨b, by simp [run, numPops, pushedElems], ?_, rfl, by simp [numPops]⟩
      simpa [numPops, pushedElems] using hinv
  | cons op t ih =>
      intro b q hinv hv hbound
      obtain ⟨hcap, hmem, hNW, hhead, hlen, hqN, hslots⟩ := hinv
      cases op with
      | push e =>
          have hv1 : b.head + 1 - b.tail ≤ b.N ∧
              validFrom b.N (b.head + 1) b.tail t = true := by
            simpa [validFrom, Bool.and_eq_true, decide_eq_true_eq] using hv
          have hpushes : numPushes (Op.push e :: t) = numPushes t + 1 := rfl
          have hqlt : q.length + 1 ≤ b.N := by omega
          have hNpos : ¬ b.N = 0 := by omega
          have hheadW : b.head + 1 < IndexSize := by omega
          have hlenW : q.length + 1 < IndexSize := by omega
          have hslot_lt : b.head % b.N < b.memory.length := by
            rw [hmem]
            exact Nat.mod_lt _ (by omega)
          have hinv2 : InvQ { b with memory := b.memory.set (b.head % b.N) (some e), len := wrapAdd b.len 1, head := wrapAdd b.head 1 } (q ++ [e]) := by
            refine ⟨hcap, by simp [hmem], hNW, ?_, ?_, by simp; omega, ?_⟩
            · simp only [wrapAdd_of_lt _ _ hheadW, List.length_append,
                List.length_cons, List.length_nil]
              omega
            · rw [hlen]
              simp only [List.length_append, List.length_cons, List.length_nil]
              exact wrapAdd_of_lt _ _ (by omega)
            · intro k hk
              simp only [List.length_append, List.length_cons, List.length_nil] at hk
              simp only [List.getD_eq_getElem?_getD]
              rcases Nat.lt_or_ge k q.length with hk2 | hk2
              · have hne : (b.tail + k) % b.N ≠ b.head % b.N := by
                  intro heq
                  have h2 : b.N ∣ (b.tail + q.length) - (b.tail + k) := by
                    refine (Nat.modEq_iff_dvd' (by omega)).mp ?_
                    show (b.tail + k) % b.N = (b.tail + q.length) % b.N
                    rw [heq, hhead]
                  have h3 : b.N ≤ (b.tail + q.length) - (b.tail + k) :=
                    Nat.le_of_dvd (by omega) h2
                  omega
                rw [List.getElem?_set_ne (fun h => hne h.symm),
                  List.getElem?_append_left hk2]
                have := hslots k hk2
                simpa [List.getD_eq_getElem?_getD] using this
              · have hk3 : k = q.length := by omega
                subst hk3
                have hidx : (b.tail + q.length) % b.N = b.head % b.N := by rw [hhead]
                rw [hidx, List.getElem?_set_self hslot_lt,
                  List.getElem?_append_right (Nat.le_refl _)]
                simp
          obtain ⟨bf, hrun, hinvf, hN2, htail2⟩ := ih _ (q ++ [e]) hinv2
            (by simpa [wrapAdd_of_lt _ _ hheadW] using hv1.2)
            (by simpa [wrapAdd_of_lt _ _ hheadW] using (by omega :
              b.head + 1 + numPushes t < IndexSize))
          refine ⟨bf, ?_, ?_, hN2, by simpa [numPops] using htail2⟩
          · rw [run, push_some b e hNpos, Option.some_bind, hrun]
            simp [pushedElems, numPops, List.append_assoc]
          · simpa [pushedElems, numPops, List.append_assoc] using hinvf
      | pop =>
          have hv1 : b.tail < b.head ∧
              validFrom b.N b.head (b.tail + 1) t = true := by
            simpa [validFrom, Bool.and_eq_true, decide_eq_true_eq] using hv
          have hpushes : numPushes (Op.pop :: t) = numPushes t := rfl
          have hq1 : 1 ≤ q.length := by omega
          have hNpos : ¬ b.N = 0 := by omega
          have htailW : b.tail + 1 < IndexSize := by omega
          obtain ⟨q0, qt, rfl⟩ : ∃ q0 qt, q = q0 :: qt := by
            cases q with
            | nil => simp at hq1
            | cons q0 qt => exact ⟨q0, qt, rfl⟩
          have hslot0 : b.memory.getD (b.tail % b.N) none = some q0 := by
            have := hslots 0 (by simp)
            simpa using this
          have hlen1 : wrapSub b.len 1 = qt.length := by
            rw [hlen]
            have := wrapSub_one_of (q0 :: qt).length (by simp) (by omega)
            simpa using this
          have hinv2 : InvQ { b with len := wrapSub b.len 1, tail := wrapAdd b.tail 1 } qt := by
            refine ⟨hcap, hmem, hNW, ?_, ?_, by simp at hqN ⊢; omega, ?_⟩
            · simp only [wrapAdd_of_lt _ _ htailW]
              simp only [List.length_cons] at hhead
              omega
            · exact hlen1
            · intro k hk
              simp only [wrapAdd_of_lt _ _ htailW]
              have heq : b.tail + 1 + k = b.tail + (k + 1) := by omega
              rw [heq]
              have := hslots (k + 1) (by simp; omega)
              simpa using this
          obtain ⟨bf, hrun, hinvf, hN2, htail2⟩ := ih _ qt hinv2
            (by simpa [wrapAdd_of_lt _ _ htailW] using hv1.2)
            (by simpa using (by omega : b.head + numPushes t < IndexSize))
          refine ⟨bf, ?_, ?_, hN2, ?_⟩
          · rw [run, pop_some b hNpos, Option.some_bind, hrun, Option.map_some']
            rw [hslot0]
            simp [pushedElems, numPops, List.take_succ_cons]
          · simpa [pushedElems, numPops, List.drop_succ_cons] using hinvf
          · simp only [wrapAdd_of_lt _ _ htailW] at htail2
            simp [numPops]
            omega

/-! ### C9: the counter invariant -/

theorem run_counter_inv (t : List (Op α)) :
    ∀ (b bf : RingBuffer α) (rs : List (Option α)),
      run b t = some (bf, rs) → b.head = (b.tail + b.len) % IndexSize →
        bf.head = (bf.tail + bf.len) % IndexSize := by
  induction t with
  | nil =>
      intro b bf rs h hi
      simp [run] at h
      rw [← h.1]
      exact hi
  | cons op t ih =>
      intro b bf rs h hi
      by_cases hN : b.N = 0
      · exfalso
        cases op with
        | push e => rw [run, push_none b e hN] at h; simp at h
        | pop => rw [run, pop_none b hN] at h; simp at h
      · cases op with
        | push e =>
            rw [run, push_some b e hN] at h
            simp only [Option.some_bind] at h
            refine ih _ _ _ h ?_
            simp only [wrapAdd, IndexSize] at hi ⊢
            omega
        | pop =>
            rw [run, pop_some b hN] at h
            simp only [Option.some_bind] at h
            cases hr : run { b with len := wrapSub b.len 1, tail := wrapAdd b.tail 1 } t with
            | none => rw [hr] at h; simp at h
            | some p =>
                rw [hr] at h
                simp only [Option.map_some', Option.some.injEq, Prod.mk.injEq] at h
                have hbf : bf = p.1 := h.1.symm
                rw [hbf]
                refine ih _ _ _ hr ?_
                simp only [wrapAdd, wrapSub, IndexSize] at hi ⊢
                omega

/-- C9.  In every state reachable from a fresh buffer by completed pushes
and pops, `head = tail + len` in the wrapping arithmetic of the index
type; a completed push increments `len` and `head` (wrapping) leaving
`tail` and `capacity` alone, a completed pop increments `tail` and
decrements `len` (wrapping) leaving `head`, `capacity` and the memory
alone, and a completed put leaves all four counters unchanged (`get` and
the predicates are modelled as pure functions of the state, so they change
nothing by construction). -/
theorem C9_counter_invariant (C : Nat) (b : RingBuffer α) (hb : Reachable α C b) :
    b.head = (b.tail + b.len) % IndexSize ∧
    (∀ (c c2 : RingBuffer α) (e : α), push c e = some c2 →
      c2.len = wrapAdd c.len 1 ∧ c2.head = wrapAdd c.head 1 ∧
      c2.tail = c.tail ∧ c2.capacity = c.capacity) ∧
    (∀ (c c2 : RingBuffer α) (r : Option α), pop c = some (c2, r) →
      c2.tail = wrapAdd c.tail 1 ∧ c2.len = wrapSub c.len 1 ∧
      c2.head = c.head ∧ c2.capacity = c.capacity ∧ c2.memory = c.memory) ∧
    (∀ (c c2 : RingBuffer α) (i : Nat) (e r : α), put c i e = some (c2, r) →
      c2.len = c.len ∧ c2.head = c.head ∧ c2.tail = c.tail ∧
      c2.capacity = c.capacity) := by
  refine ⟨?_, ?_, ?_, ?_⟩
  · obtain ⟨t, rs, h⟩ := hb
    refine run_counter_inv t (new α C) b rs h ?_
    simp [new, with_capacity, IndexSize]
  · intro c c2 e h
    by_cases hN : c.N = 0
    · rw [push_none c e hN] at h; simp at h
    · rw [push_some c e hN] at h
      simp only [Option.some.injEq] at h
      rw [← h]
      exact ⟨rfl, rfl, rfl, rfl⟩
  · intro c c2 r h
    by_cases hN : c.N = 0
    · rw [pop_none c hN] at h; simp at h
    · rw [pop_some c hN] at h
      simp only [Option.some.injEq, Prod.mk.injEq] at h
      rw [← h.1]
      exact ⟨rfl, rfl, rfl, rfl, rfl⟩
  · intro c c2 i e r h
    by_cases hN : c.N = 0
    · simp [put, hN] at h
    · simp only [put, hN, if_false, Option.some.injEq, Prod.mk.injEq] at h
      rw [← h.1]
      exact ⟨rfl, rfl, rfl, rfl⟩

/-- Witness for C9 at the freshly constructed buffer of capacity `1`,
reachable by the empty trace. -/
theorem C9_counter_invariant_witness :
    (new Nat 1).head = ((new Nat 1).tail + (new Nat 1).len) % IndexSize ∧
    (∀ (c c2 : RingBuffer Nat) (e : Nat), push c e = some c2 →
      c2.len = wrapAdd c.len 1 ∧ c2.head = wrapAdd c.head 1 ∧
      c2.tail = c.tail ∧ c2.capacity = c.capacity) := by
  have h := C9_counter_invariant 1 (new Nat 1) ⟨[], [], rfl⟩
  exact ⟨h.1, h.2.1⟩

/-! ### C2: sequences of pushes -/

theorem validFrom_pushes (l : List α) :
    ∀ (N p o : Nat), o ≤ p → p + l.length - o ≤ N →
      validFrom N p o (l.map Op.push) = true := by
  induction l with
  | nil => intro N p o _ _; rfl
  | cons e l ih =>
      intro N p o ho hN
      simp only [List.map_cons, validFrom, Bool.and_eq_true, decide_eq_true_eq]
      simp only [List.length_cons] at hN
      exact ⟨by omega, ih N (p + 1) o (by omega) (by omega)⟩

theorem numPushes_pushes (l : List α) : numPushes (l.map Op.push) = l.length := by
  induction l with
  | nil => rfl
  | cons e l ih => simp [numPushes, ih]

theorem numPops_pushes (l : List α) : numPops (l.map Op.push) = 0 := by
  induction l with
  | nil => rfl
  | cons e l ih => simp [numPops, ih]

theorem pushedElems_pushes (l : List α) : pushedElems (l.map Op.push) = l := by
  induction l with
  | nil => rfl
  | cons e l ih => simp [pushedElems, ih]

theorem InvQ_new (α : Type) (C : Nat) (hC : C < IndexSize) :
    InvQ (new α C) ([] : List α) := by
  refine ⟨rfl, by simp [new, with_capacity], hC, rfl, rfl, by simp, ?_⟩
  intro k hk
  simp at hk

/-- C2.  Starting from a fresh buffer of capacity `C` and pushing the first
`k` elements of any list `l` of at most `C` elements (`1 ≤ k ≤ l.length`):
every push completes, and afterwards `len = k`, index `k - 1` is in range,
index `k` is not, and `get (k - 1)` returns exactly the element of the
`k`-th push. -/
theorem C2_push_sequence (α : Type) (C : Nat) (l : List α) (k : Nat)
    (hC : C < IndexSize) (hl : l.length ≤ C) (hk1 : 1 ≤ k) (hk2 : k ≤ l.length) :
    ∃ b, run (new α C) ((l.take k).map Op.push) = some (b, []) ∧
      b.len = k ∧ is_index_in_range b (k - 1) = true ∧
      is_index_in_range b k = false ∧ get b (k - 1) = some l[k - 1]? := by
  have hkl : (l.take k).length = k := by
    simp [List.length_take]
    omega
  have hv : validFrom C 0 0 ((l.take k).map Op.push) = true :=
    validFrom_pushes (l.take k) C 0 0 (Nat.le_refl 0) (by omega)
  have hbound : (0 : Nat) + numPushes ((l.take k).map Op.push) < IndexSize := by
    rw [numPushes_pushes]
    omega
  obtain ⟨bf, hrun, hinvf, hN, htail⟩ :=
    fifo_run ((l.take k).map Op.push) (new α C) [] (InvQ_new α C hC) hv hbound
  have e1 : numPops ((l.take k).map Op.push) = 0 := numPops_pushes _
  have e2 : pushedElems ((l.take k).map Op.push) = l.take k := pushedElems_pushes _
  rw [e1, e2] at hrun hinvf
  rw [e1] at htail
  have hrun2 : run (new α C) ((l.take k).map Op.push) = some (bf, []) := by
    simpa using hrun
  have hinvf2 : InvQ bf (l.take k) := by
    simpa using hinvf
  obtain ⟨hcap, hmem, hNW, hhead, hlen, hqN, hslots⟩ := hinvf2
  have htail0 : bf.tail = 0 := htail
  have hNC : bf.N = C := hN
  refine ⟨bf, hrun2, by rw [hlen, hkl], ?_, ?_, ?_⟩
  · simp only [is_index_in_range, Bool.and_eq_true, decide_eq_true_eq]
    rw [htail0, hhead, htail0, hlen, hkl]
    omega
  · simp only [is_index_in_range, Bool.and_eq_true, decide_eq_true_eq]
    rw [hhead, htail0, hlen, hkl]
    simp
  · have hk3 : k - 1 < (l.take k).length := by omega
    have hslot := hslots (k - 1) hk3
    rw [htail0] at hslot
    simp only [Nat.zero_add] at hslot
    have hCpos : ¬ C = 0 := by omega
    rw [hNC] at hslot
    simp only [get, hNC, if_neg hCpos]
    rw [hslot]
    congr 1
    exact List.getElem?_take_of_lt (by omega)

/-- Witness for C2 at capacity `3`, list `[10, 20]`, `k = 2`. -/
theorem C2_push_sequence_witness :
    ∃ b, run (new Nat 3) (([10, 20].take 2).map Op.push) = some (b, []) ∧
      b.len = 2 ∧ is_index_in_range b 1 = true ∧
      is_index_in_range b 2 = false ∧ get b 1 = some [10, 20][1]? :=
  C2_push_sequence Nat 3 [10, 20] 2 (by decide) (by decide) (by decide) (by decide)

/-! ### C3: FIFO order of pops -/

/-- C3 amended: for every trace of pushes and pops from a fresh buffer of
capacity `C` in which the live count never exceeds `C`, no pop hits an
empty buffer, and fewer than `2 ^ 64` pushes occur (so the `u64` logical
counters cannot wrap), the whole trace completes and the pops return
exactly the pushed elements in push order. -/
theorem C3_fifo (α : Type) (C : Nat) (t : List (Op α))
    (hv : validFrom C 0 0 t = true) (hC : C < IndexSize)
    (hp : numPushes t < IndexSize) :
    ∃ bf, run (new α C) t =
      some (bf, ((pushedElems t).take (numPops t)).map some) := by
  have hb : (new α C).head + numPushes t < IndexSize := by
    have h0 : (new α C).head = 0 := rfl
    omega
  obtain ⟨bf, hrun, _, _, _⟩ :=
    fifo_run t (new α C) [] (InvQ_new α C hC) hv hb
  exact ⟨bf, by simpa using hrun⟩

/-- Witness for C3 amended on a concrete interleaved trace of capacity `2`:
push 7, push 8, pop, push 9, pop, pop. -/
theorem C3_fifo_witness :
    ∃ bf, run (new Nat 2)
        [Op.push 7, Op.push 8, Op.pop, Op.push 9, Op.pop, Op.pop] =
      some (bf, ((pushedElems [Op.push 7, Op.push 8, Op.pop, Op.push (9 : Nat),
        Op.pop, Op.pop]).take (numPops [Op.push 7, Op.push 8, Op.pop,
        Op.push (9 : Nat), Op.pop, Op.pop])).map some) :=
  C3_fifo Nat 2 [Op.push 7, Op.push 8, Op.pop, Op.push 9, Op.pop, Op.pop]
    (by decide) (by decide) (by decide)

/-! ### C7: put and get address the slot index mod capacity -/

/-- C7.  On a buffer whose `capacity` field agrees with the const generic
(as in every constructed buffer) and is positive, `put i e` completes and
returns `e`, and an immediate `get j` for any `j` congruent to `i` modulo
the capacity reads back `e` from the shared physical slot. -/
theorem C7_put_get (b : RingBuffer α) (i j : Nat) (e : α)
    (hcap : b.capacity = b.N) (hmem : b.memory.length = b.N)
    (hpos : 0 < b.capacity) (hij : i % b.capacity = j % b.capacity) :
    ∃ b2, put b i e = some (b2, e) ∧ get b2 j = some (some e) := by
  have hN0 : 0 < b.N := by omega
  have hN : ¬ b.N = 0 := by omega
  refine ⟨{ b with memory := b.memory.set (i % b.N) (some e) }, ?_, ?_⟩
  · simp [put, hN]
  · have hidx : j % b.N = i % b.N := by
      rw [← hcap]
      exact hij.symm
    have hlt : i % b.N < b.memory.length := by
      rw [hmem]
      exact Nat.mod_lt _ hN0
    simp only [get, if_neg hN]
    rw [hidx]
    simp [List.getD_eq_getElem?_getD, List.getElem?_set_self hlt]

/-- Witness for C7 on a fresh buffer of capacity `2` with the congruent
logical indices `1` and `5`. -/
theorem C7_put_get_witness :
    ∃ b2, put (new Nat 2) 1 9 = some (b2, 9) ∧ get b2 5 = some (some 9) :=
  C7_put_get (new Nat 2) 1 5 9 rfl (by decide) (by decide) (by decide)

/-! ### C3 as stated is false: counter wraparound after 2^64 pushes -/

theorem pushedElems_append (s t : List (Op α)) :
    pushedElems (s ++ t) = pushedElems s ++ pushedElems t := by
  induction s with
  | nil => rfl
  | cons op s ih => cases op <;> simp [pushedElems, ih]

theorem numPops_append (s t : List (Op α)) :
    numPops (s ++ t) = numPops s + numPops t := by
  induction s with
  | nil => simp [numPops]
  | cons op s ih =>
      cases op with
      | push e => simp [numPops, ih]
      | pop => simp [numPops, ih]; omega

theorem numPushes_append (s t : List (Op α)) :
    numPushes (s ++ t) = numPushes s + numPushes t := by
  induction s with
  | nil => simp [numPushes]
  | cons op s ih =>
      cases op with
      | push e => simp [numPushes, ih]; omega
      | pop => simp [numPushes, ih]

theorem validFrom_append_intro (N : Nat) (s : List (Op α)) :
    ∀ (t : List (Op α)) (p o : Nat), validFrom N p o s = true →
      validFrom N (p + numPushes s) (o + numPops s) t = true →
      validFrom N p o (s ++ t) = true := by
  induction s with
  | nil =>
      intro t p o _ h2
      simpa [numPushes, numPops] using h2
  | cons op s ih =>
      intro t p o h1 h2
      cases op with
      | push e =>
          simp only [validFrom, Bool.and_eq_true, decide_eq_true_eq] at h1
          simp only [List.cons_append, validFrom, Bool.and_eq_true,
            decide_eq_true_eq]
          refine ⟨h1.1, ih t (p + 1) o h1.2 ?_⟩
          have hp : p + numPushes (Op.push e :: s) = p + 1 + numPushes s := by
            simp [numPushes]
            omega
          have ho : o + numPops (Op.push e :: s) = o + numPops s := by
            simp [numPops]
          rw [hp, ho] at h2
          exact h2
      | pop =>
          simp only [validFrom, Bool.and_eq_true, decide_eq_true_eq] at h1
          simp only [List.cons_append, validFrom, Bool.and_eq_true,
            decide_eq_true_eq]
          refine ⟨h1.1, ih t p (o + 1) h1.2 ?_⟩
          have hp : p + numPushes (Op.pop :: s) = p + numPushes s := by
            simp [numPushes]
          have ho : o + numPops (Op.pop :: s) = o + 1 + numPops s := by
            simp [numPops]
            omega
          rw [hp, ho] at h2
          exact h2

theorem pushedElems_pairTrace (x : α) :
    ∀ m, pushedElems (pairTrace x m) = List.replicate m x := by
  intro m
  induction m with
  | zero => rfl
  | succ m ih => simp [pairTrace, pushedElems, ih, List.replicate_succ]

theorem numPops_pairTrace (x : α) : ∀ m, numPops (pairTrace x m) = m := by
  intro m
  induction m with
  | zero => rfl
  | succ m ih => simp [pairTrace, numPops, ih]

theorem numPushes_pairTrace (x : α) : ∀ m, numPushes (pairTrace x m) = m := by
  intro m
  induction m with
  | zero => rfl
  | succ m ih => simp [pairTrace, numPushes, ih]

theorem validFrom_pairTrace (N : Nat) (hN : 1 ≤ N) (x : α) :
    ∀ m p, validFrom N p p (pairTrace x m) = true := by
  intro m
  induction m with
  | zero => intro p; rfl
  | succ m ih =>
      intro p
      simp only [pairTrace, validFrom, Bool.and_eq_true, decide_eq_true_eq]
      exact ⟨by omega, by omega, ih (p + 1)⟩

theorem run_pairs (x : α) :
    ∀ (m j : Nat), j + m < IndexSize →
      run (RingBuffer.mk 3 [some x, some x, some x] 3 0 j j) (pairTrace x m) =
        some (RingBuffer.mk 3 [some x, some x, some x] 3 0 (j + m) (j + m),
          List.replicate m (some x)) := by
  intro m
  induction m with
  | zero => intro j h; simp [pairTrace, run]
  | succ m ih =>
      intro j h
      have hj1 : j + 1 < IndexSize := by omega
      have hmod : j % 3 = 0 ∨ j % 3 = 1 ∨ j % 3 = 2 := by omega
      have hset : (([some x, some x, some x] : List (Option α)).set (j % 3) (some x)) = [some x, some x, some x] := by
        rcases hmod with h3 | h3 | h3 <;> rw [h3] <;> rfl
      have hget : (([some x, some x, some x] : List (Option α)).getD (j % 3) none) = some x := by
        rcases hmod with h3 | h3 | h3 <;> rw [h3] <;> rfl
      have hw0 : wrapAdd 0 1 = 1 := by decide
      have hws : wrapSub 1 1 = 0 := by decide
      have hwj : wrapAdd j 1 = j + 1 := wrapAdd_of_lt j 1 hj1
      rw [pairTrace, run,
        push_some (RingBuffer.mk 3 [some x, some x, some x] 3 0 j j) x
          (by simp), Option.some_bind]
      simp only [hset, hw0, hwj]
      rw [run,
        pop_some (RingBuffer.mk 3 [some x, some x, some x] 3 1 (j + 1) j)
          (by simp), Option.some_bind]
      simp only [hget, hws, hwj]
      rw [ih (j + 1) (by omega)]
      simp only [Option.map_some']
      have hjm : j + 1 + m = j + (m + 1) := by omega
      rw [hjm]
      simp [List.replicate_succ]

/-- The last three operations of the long counterexample trace. -/
def cexTail : List (Op Nat) := [Op.push 1, Op.push 2, Op.pop]

/-- A valid trace on capacity `3` long enough to wrap the `u64` counters:
`2 ^ 64 - 1` push-pop pairs of the value `0`, then pushes of `1` and `2`
and a final pop. -/
def cexTrace : List (Op Nat) :=
  pairTrace 0 3 ++ (pairTrace 0 (IndexSize - 4) ++ cexTail)

theorem run_cexTrace :
    run (new Nat 3) cexTrace =
      some (RingBuffer.mk 3 [some 2, some 0, some 0] 3 1 1 0,
        List.replicate (IndexSize - 1) (some 0) ++ [some 2]) := by
  have h1 : run (new Nat 3) (pairTrace 0 3) =
      some (RingBuffer.mk 3 [some 0, some 0, some 0] 3 0 3 3,
        List.replicate 3 (some 0)) := by decide
  have hW : 3 + (IndexSize - 4) < IndexSize := by decide
  have hW2 : 3 + (IndexSize - 4) = IndexSize - 1 := by decide
  have h2 := run_pairs (0 : Nat) (IndexSize - 4) 3 hW
  rw [hW2] at h2
  have h3 : run (RingBuffer.mk 3 [some 0, some 0, some 0] 3 0 (IndexSize - 1)
      (IndexSize - 1)) cexTail =
      some (RingBuffer.mk 3 [some 2, some 0, some 0] 3 1 1 0, [some 2]) := by
    decide
  rw [cexTrace, run_append, h1, Option.some_bind, run_append, h2,
    Option.some_bind, h3]
  simp only [Option.map_some', Option.some.injEq, Prod.mk.injEq, true_and]
  rw [← List.append_assoc, List.append_replicate_replicate, hW2]

theorem validFrom_cexTrace : validFrom 3 0 0 cexTrace = true := by
  rw [cexTrace]
  refine validFrom_append_intro 3 (pairTrace 0 3) _ 0 0 (by decide) ?_
  rw [numPushes_pairTrace, numPops_pairTrace]
  refine validFrom_append_intro 3 (pairTrace 0 (IndexSize - 4)) _ (0 + 3) (0 + 3)
    (validFrom_pairTrace 3 (by decide) 0 (IndexSize - 4) (0 + 3)) ?_
  rw [numPushes_pairTrace, numPops_pairTrace]
  decide

/-- Counterexample to C3 as stated.  The trace `cexTrace` is valid for
capacity `3`: the live count never exceeds `3` and no pop hits an empty
buffer.  Yet, because its `2 ^ 64 + 1` pushes wrap the `u64` `head` and
`tail` counters, the run completes with its last pop returning `2`, while
FIFO order demands the corresponding (`2 ^ 64`-th) pushed element `1`:
the pop results differ from the pushed elements taken in push order. -/
theorem C3_counterexample :
    validFrom 3 0 0 cexTrace = true ∧
    run (new Nat 3) cexTrace =
      some (RingBuffer.mk 3 [some 2, some 0, some 0] 3 1 1 0,
        List.replicate (IndexSize - 1) (some 0) ++ [some 2]) ∧
    List.replicate (IndexSize - 1) (some 0) ++ [some 2] ≠
      ((pushedElems cexTrace).take (numPops cexTrace)).map some := by
  refine ⟨validFrom_cexTrace, run_cexTrace, ?_⟩
  have hp : pushedElems cexTrace =
      List.replicate (IndexSize - 1) 0 ++ [1, 2] := by
    rw [cexTrace, pushedElems_append, pushedElems_append,
      pushedElems_pairTrace, pushedElems_pairTrace]
    rw [← List.append_assoc, List.append_replicate_replicate]
    have hW2 : 3 + (IndexSize - 4) = IndexSize - 1 := by decide
    rw [hW2]
    rfl
  have hn : numPops cexTrace = (IndexSize - 1) + 1 := by
    rw [cexTrace, numPops_append, numPops_append, numPops_pairTrace,
      numPops_pairTrace]
    decide
  rw [hp, hn]
  have ht : (List.replicate (IndexSize - 1) (0 : Nat) ++ [1, 2]).take
      ((IndexSize - 1) + 1) =
      List.replicate (IndexSize - 1) 0 ++ [1] := by
    have := @List.take_append Nat (List.replicate (IndexSize - 1) (0 : Nat))
      [1, 2] 1
    simpa using this
  rw [ht]
  intro hcontra
  rw [List.map_append, List.map_replicate] at hcontra
  have := List.append_cancel_left hcontra
  simp at this

end ArrowRing
